import Mathlib

/-!
Verification of the NeuronOS core against its specification.

This file gives a shallow embedding, in Lean 4, of the parts of the
NeuronOS C sources that the specification's claims talk about:

* the scalar HAL backend (`hal_scalar.c`): the `vec_dot_i2_i8` kernel,
  the `quantize_i2` routine and the I2_S bit-packing layout;
* the hardware-probe budget computation and the model scoring function
  (hardware detection / auto-selection unit);
* the tool registry (`neuronos_tool_registry.c`): registration,
  execution, name lookup, GBNF grammar generation and the default
  tool set.

Modelling conventions:

* C byte buffers are modelled as functions `Nat → Nat` from byte index
  to byte value (bytes are `< 256` where it matters, stated as
  hypotheses); `int8_t` activations are `Nat → Int`.
* `int32_t`/`int64_t` arithmetic that cannot overflow on the inputs the
  claims quantify over is modelled on unbounded `Int`.
* C `float`/`double` values are modelled as exact rationals `ℚ`; the
  operations the claims depend on (absolute value, comparisons against
  `1e-6`, sign of a product, max) are exact in this range, so the
  model is faithful to the IEEE semantics for them.
* C truncating integer division (`/` on `int64_t`) is `Int.tdiv`.
* Nullable C pointers are modelled as `Option`; a C function pointer
  together with its `user_data` is modelled as a Lean function
  `String → neuronos_tool_result_t`.
-/

/- ================================================================
   HAL scalar backend (hal_scalar.c)
   ================================================================ -/

/-- Quantization block size of the scalar backend (`SCALAR_QK_I2_S`). -/
def SCALAR_QK_I2_S : Nat := 128

/-- Extraction of the raw 2-bit code of in-block weight index `j` from a
32-byte packed block, exactly as the inline unpacking loop of the
kernels computes it: `group_idx = j / 32`, `group_pos = j % 32`,
`raw = (packed[group_pos] >> (6 - 2*group_idx)) & 0x03`. -/
def i2_get_raw (packed : Nat → Nat) (j : Nat) : Nat :=
  (packed (j % 32) >>> (6 - 2 * (j / 32))) &&& 3

/-- Raw 2-bit code of global weight index `i` inside a multi-block packed
row: the byte is `i % 32` of block `i / 128` (byte index
`i/128*32 + i%32`), the bit offset is `6 - 2*⌊j/32⌋` for the in-block
index `j = i % 128` (so `j/32 = i/32 % 4`). -/
def i2_field (packed : Nat → Nat) (i : Nat) : Nat :=
  (packed (i / 128 * 32 + i % 32) >>> (6 - 2 * (i / 32 % 4))) &&& 3

/-- `scalar_vec_dot_i2_i8` (hal_scalar.c): dot product of one row of
packed I2_S weights with int8 activations.  The C kernel writes
`s[row] = (float)sum` for every `row < nrc`; we model the per-row
`int32` accumulator.  `x` is the packed weight buffer (byte index →
byte value), `bx` the row stride in bytes (the row base is
`row * (bx / 4)` as in the C code), `y` the activation vector. -/
def scalar_vec_dot_i2_i8 (n : Nat) (x : Nat → Nat) (bx : Nat) (y : Nat → Int) (row : Nat) : Int :=
  let x_row : Nat → Nat := fun p => x (row * (bx / 4) + p)
  (List.range (n / SCALAR_QK_I2_S)).foldl
    (fun sum block =>
      let packed : Nat → Nat := fun p => x_row (block * 32 + p)
      let yi : Nat → Int := fun j => y (block * SCALAR_QK_I2_S + j)
      (List.range SCALAR_QK_I2_S).foldl
        (fun sum j =>
          let group_idx := j / 32
          let group_pos := j % 32
          let byte := packed group_pos
          let raw := (byte >>> (6 - 2 * group_idx)) &&& 3
          sum + (raw : Int) * yi j)
        sum)
    0

/-- Step 3 of `scalar_quantize_i2`, inner loop for one block `blk`:
`out[blk*32 + group_pos] |= val << (6 - 2*group_idx)` for each of the
128 in-block weight indices `j`, with `val = q8[blk*128 + j]`.  The
output buffer is a function from byte index to byte value. -/
def pack_block_into (q8 : Nat → Nat) (blk : Nat) (out : Nat → Nat) : Nat → Nat :=
  (List.range SCALAR_QK_I2_S).foldl
    (fun out j => fun p =>
      if p = blk * 32 + j % 32
      then out p ||| (q8 (blk * SCALAR_QK_I2_S + j) <<< (6 - 2 * (j / 32)))
      else out p)
    out

/-- Step 3 of `scalar_quantize_i2`, outer loop: the destination is
zero-initialised (`memset(out, 0, n/4)`), then every block is packed. -/
def quant_pack (q8 : Nat → Nat) (num_blocks : Nat) : Nat → Nat :=
  (List.range num_blocks).foldl (fun out blk => pack_block_into q8 blk out) (fun _ => 0)

/-- Step 1 of `scalar_quantize_i2`: running maximum of `fabs(src[i])`
starting from `0.0`, taken as the scale. -/
def i2_max_abs (src : List ℚ) : ℚ :=
  src.foldl (fun max_val w => if |w| > max_val then |w| else max_val) 0

/-- Step 2 of `scalar_quantize_i2`: the raw code emitted for one weight.
`if (fabs(src[i]) < 1e-6) q8[i] = 1; else q8[i] = (src[i]*i2_scale > 0) ? 2 : 0;` -/
def i2_code (i2_scale : ℚ) (w : ℚ) : Nat :=
  if |w| < 1 / 1000000 then 1 else if w * i2_scale > 0 then 2 else 0

/-- `scalar_quantize_i2` (hal_scalar.c) on a flattened weight buffer
(the C code flattens `nrow * n_per_row` to `n` up front).  Returns the
packed byte buffer and the float32 scale that the C code stores at byte
offset `n / 4`, right after the packed data. -/
def scalar_quantize_i2 (src : List ℚ) : (Nat → Nat) × ℚ :=
  let n := src.length
  let i2_scale := i2_max_abs src
  let q8 := src.map (fun w => i2_code i2_scale w)
  (quant_pack (fun i => q8.getD i 0) (n / SCALAR_QK_I2_S), i2_scale)

/-- Proof helper: the value of one packed byte restricted to its first
`g` 2-bit groups, `∑ g' < g, q8[base + 32*g' + r] * 2^(6-2*g')`. -/
def fieldSum (q8 : Nat → Nat) (base r : Nat) : Nat → Nat
  | 0 => 0
  | g + 1 => fieldSum q8 base r g + q8 (base + 32 * g + r) * 2 ^ (6 - 2 * g)

/- ================================================================
   Hardware probe budget and model scoring (hw/model selection unit)
   ================================================================ -/

/-- `neuronos_hw_info_t` (subset of fields relevant here; strings are
display-only). -/
structure neuronos_hw_info_t where
  cpu_name : String
  arch : String
  n_cores_physical : Int
  n_cores_logical : Int
  ram_total_mb : Int
  ram_available_mb : Int
  model_budget_mb : Int
  gpu_name : String
  gpu_vram_mb : Int
  features : Nat

/-- `neuronos_model_entry_t`.  The name is the char array compared by
`strstr`, modelled as a list of characters. -/
structure neuronos_model_entry_t where
  path : String
  name : List Char
  file_size_mb : Int
  est_ram_mb : Int
  n_params_est : Int
  fits_in_ram : Bool
  score : ℚ

/-- The budget computation at the end of `neuronos_detect_hardware`:
`hw.model_budget_mb = hw.ram_available_mb - 500; if (< 256) = 256;`.
The probe itself is platform I/O; whatever value `ram_available_mb`
ends up with, the budget is this function of it. -/
def neuronos_model_budget_mb (ram_available_mb : Int) : Int :=
  let model_budget_mb := ram_available_mb - 500
  if model_budget_mb < 256 then 256 else model_budget_mb

/-- `score_model` (hardware/model selection unit).  `strstr(a, b)` is
non-null iff `b` is a contiguous substring of `a`, i.e. `b <:+: a` on
the character lists.  Float accumulation is modelled exactly on `ℚ`. -/
def score_model (entry : neuronos_model_entry_t) (hw : neuronos_hw_info_t) : ℚ :=
  if entry.est_ram_mb > hw.model_budget_mb then -1
  else
    let score : ℚ := 0 + 1000
    let params_b : Int := entry.n_params_est.tdiv 1000000000
    let score := if 8 ≤ params_b then score + 100
      else if 4 ≤ params_b then score + 80
      else if 2 ≤ params_b then score + 60
      else if 1 ≤ params_b then score + 30
      else score + 10
    let headroom : ℚ := ((hw.model_budget_mb - entry.est_ram_mb : Int) : ℚ) / ((hw.model_budget_mb : Int) : ℚ)
    let score := score + headroom * 50
    let score := if "i2_s".data <:+: entry.name ∨ "I2_S".data <:+: entry.name ∨
        "1.58".data <:+: entry.name ∨ "bitnet".data <:+: entry.name ∨ "BitNet".data <:+: entry.name
      then score + 25 else score
    let score := if "nstruct".data <:+: entry.name ∨ "chat".data <:+: entry.name ∨
        "Chat".data <:+: entry.name
      then score + 15 else score
    score

/-- Name matching as the claim words it: the name contains one of the
patterns. -/
def name_matches (pats : List (List Char)) (name : List Char) : Prop :=
  ∃ p ∈ pats, p <:+: name

instance (pats : List (List Char)) (name : List Char) : Decidable (name_matches pats name) := by
  unfold name_matches
  infer_instance

/-- The claim's quality tier, by the stated parameter bands
`{<1B:10, 1-2B:30, 2-4B:60, 4-8B:80, ≥8B:100}`. -/
def quality_tier_claim (n_params_est : Int) : ℚ :=
  if 8 * 1000000000 ≤ n_params_est then 100
  else if 4 * 1000000000 ≤ n_params_est then 80
  else if 2 * 1000000000 ≤ n_params_est then 60
  else if 1 * 1000000000 ≤ n_params_est then 30
  else 10

/-- The scoring function exactly as claim C4 words it, including its
instruct-bonus pattern set `{instruct, chat, Chat}`. -/
def claim_score (entry : neuronos_model_entry_t) (hw : neuronos_hw_info_t) : ℚ :=
  if entry.est_ram_mb > hw.model_budget_mb then -1
  else 1000 + quality_tier_claim entry.n_params_est
    + 50 * ((hw.model_budget_mb - entry.est_ram_mb : Int) : ℚ) / ((hw.model_budget_mb : Int) : ℚ)
    + (if name_matches ["i2_s".data, "I2_S".data, "1.58".data, "bitnet".data, "BitNet".data] entry.name
       then 25 else 0)
    + (if name_matches ["instruct".data, "chat".data, "Chat".data] entry.name then 15 else 0)

/-- Claim C4 amended: the instruct-bonus pattern set is
`{nstruct, chat, Chat}` (the source matches the substring `"nstruct"`,
which catches both `instruct` and `Instruct`). -/
def claim_score_amended (entry : neuronos_model_entry_t) (hw : neuronos_hw_info_t) : ℚ :=
  if entry.est_ram_mb > hw.model_budget_mb then -1
  else 1000 + quality_tier_claim entry.n_params_est
    + 50 * ((hw.model_budget_mb - entry.est_ram_mb : Int) : ℚ) / ((hw.model_budget_mb : Int) : ℚ)
    + (if name_matches ["i2_s".data, "I2_S".data, "1.58".data, "bitnet".data, "BitNet".data] entry.name
       then 25 else 0)
    + (if name_matches ["nstruct".data, "chat".data, "Chat".data] entry.name then 15 else 0)

/- ================================================================
   Tool registry (neuronos_tool_registry.c)
   ================================================================ -/

/-- `neuronos_tool_result_t`: `{0}`-initialised fields are
`success = false`, `output = error = NULL`. -/
structure neuronos_tool_result_t where
  success : Bool
  output : Option String
  error : Option String
deriving DecidableEq

/-- `neuronos_tool_desc_t`.  The C executor is a function pointer taking
`(args_json, user_data)`; the pointer together with the descriptor's
`user_data` is modelled as one Lean function from the argument string
to the result. -/
structure neuronos_tool_desc_t where
  name : Option String
  description : Option String
  args_schema_json : Option String
  execute : Option (String → neuronos_tool_result_t)
  required_caps : Nat

/-- `NEURONOS_MAX_TOOLS`. -/
def NEURONOS_MAX_TOOLS : Nat := 64

/-- `struct neuronos_tool_reg`: the first `count` slots of the
fixed-size array, in order. -/
structure neuronos_tool_reg where
  tools : List neuronos_tool_desc_t

/-- `neuronos_tool_registry_create` (with `calloc` succeeding):
zeroed registry, `count = 0`. -/
def neuronos_tool_registry_create : neuronos_tool_reg := ⟨[]⟩

/-- `neuronos_tool_register`: returns the C `int` result and the
registry state after the call. -/
def neuronos_tool_register (reg : neuronos_tool_reg) (desc : neuronos_tool_desc_t) :
    Int × neuronos_tool_reg :=
  match desc.name, desc.execute with
  | some nm, some _ =>
    if NEURONOS_MAX_TOOLS ≤ reg.tools.length then (-1, reg)
    else if reg.tools.any (fun t => t.name == some nm) then (-1, reg)
    else (0, ⟨reg.tools ++ [desc]⟩)
  | _, _ => (-1, reg)

/-- The empty JSON object string `"{}"` substituted for NULL args. -/
def json_empty_object : String := "\x7b\x7d"

/-- Calling through a NULL executor pointer is undefined behaviour in C;
`neuronos_tool_register` never admits such a descriptor.  The model
returns the zeroed result in that (unreachable for well-formed
registries) case. -/
def null_executor : String → neuronos_tool_result_t := fun _ => ⟨false, none, none⟩

/-- `neuronos_tool_execute`: NULL checks, linear search by `strcmp`,
dispatch with `args_json ? args_json : "{}"`. -/
def neuronos_tool_execute (reg : Option neuronos_tool_reg) (tool_name : Option String)
    (args_json : Option String) : neuronos_tool_result_t :=
  match reg, tool_name with
  | some reg, some nm =>
    match reg.tools.find? (fun t => t.name == some nm) with
    | some t => (t.execute.getD null_executor) (args_json.getD json_empty_object)
    | none => ⟨false, none, some "Tool not found"⟩
  | _, _ => ⟨false, none, some "Invalid arguments"⟩

/-- `neuronos_tool_count`. -/
def neuronos_tool_count (reg : Option neuronos_tool_reg) : Int :=
  match reg with
  | some reg => reg.tools.length
  | none => 0

/-- `neuronos_tool_name`: NULL on a NULL registry or an index outside
`[0, count)`, otherwise `tools[index].name`. -/
def neuronos_tool_name (reg : Option neuronos_tool_reg) (index : Int) : Option String :=
  match reg with
  | none => none
  | some reg =>
    if index < 0 ∨ (reg.tools.length : Int) ≤ index then none
    else (reg.tools.get? index.toNat).bind (fun t => t.name)

/-- `neuronos_tool_grammar_names` (with `malloc` succeeding and the
buffer estimate sufficient, so no `snprintf` truncation): the loop
appends `" | "` before every entry but the first, then
`"\"\\\"" ++ name ++ "\\\"\""`. -/
def neuronos_tool_grammar_names (reg : Option neuronos_tool_reg) : String :=
  match reg with
  | none => "tool-name ::= \"\\\"noop\\\"\""
  | some reg =>
    if reg.tools.length = 0 then "tool-name ::= \"\\\"noop\\\"\""
    else
      (reg.tools.foldl
        (fun acc t =>
          let buf := acc.1
          let i := acc.2
          let buf := if 0 < i then buf ++ " | " else buf
          (buf ++ "\"\\\"" ++ t.name.getD "" ++ "\\\"\"", i + 1))
        ("tool-name ::= ", (0 : Nat))).1

/-- Expected shape of the grammar rule body after the first tool:
`" | " ++ quoted name` for each later tool, in order. -/
def grammar_rest : List neuronos_tool_desc_t → String
  | [] => ""
  | t :: ts => " | " ++ "\"\\\"" ++ t.name.getD "" ++ "\\\"\"" ++ grammar_rest ts

/-- Expected shape of the grammar rule body: quoted names in
registration order separated by `" | "`. -/
def grammar_items : List neuronos_tool_desc_t → String
  | [] => ""
  | t :: ts => "\"\\\"" ++ t.name.getD "" ++ "\\\"\"" ++ grammar_rest ts

/-- Modelled from the spec: the capability mask is "a bitset of granted
permissions (filesystem, shell, network, …)"; the constants
`NEURONOS_CAP_SHELL` / `NEURONOS_CAP_FILESYSTEM` live in
`neuronos.h`, which is not among the sources, so each is one distinct
bit here. -/
def NEURONOS_CAP_SHELL : Nat := 1

/-- Modelled from the spec: see `NEURONOS_CAP_SHELL`. -/
def NEURONOS_CAP_FILESYSTEM : Nat := 2

/-- The `shell` built-in descriptor of `neuronos_tool_register_defaults`
(executor body is process I/O, taken as a parameter). -/
def shell_tool_desc (exec_fn : String → neuronos_tool_result_t) : neuronos_tool_desc_t :=
  { name := some "shell"
    description := some "Execute a shell command and return its output."
    args_schema_json := some "\x7b\"type\":\"object\",\"properties\":\x7b\"command\":\x7b\"type\":\"string\",\"description\":\"The shell command to execute\"\x7d\x7d,\"required\":[\"command\"]\x7d"
    execute := some exec_fn
    required_caps := NEURONOS_CAP_SHELL }

/-- The `read_file` built-in descriptor. -/
def read_file_tool_desc (exec_fn : String → neuronos_tool_result_t) : neuronos_tool_desc_t :=
  { name := some "read_file"
    description := some "Read the contents of a file (max 32KB)."
    args_schema_json := some "\x7b\"type\":\"object\",\"properties\":\x7b\"path\":\x7b\"type\":\"string\",\"description\":\"File path to read\"\x7d\x7d,\"required\":[\"path\"]\x7d"
    execute := some exec_fn
    required_caps := NEURONOS_CAP_FILESYSTEM }

/-- The `write_file` built-in descriptor. -/
def write_file_tool_desc (exec_fn : String → neuronos_tool_result_t) : neuronos_tool_desc_t :=
  { name := some "write_file"
    description := some "Write content to a file."
    args_schema_json := some "\x7b\"type\":\"object\",\"properties\":\x7b\"path\":\x7b\"type\":\"string\"\x7d,\"content\":\x7b\"type\":\"string\"\x7d\x7d,\"required\":[\"path\",\"content\"]\x7d"
    execute := some exec_fn
    required_caps := NEURONOS_CAP_FILESYSTEM }

/-- The `calculate` built-in descriptor (`required_caps = 0`). -/
def calculate_tool_desc (exec_fn : String → neuronos_tool_result_t) : neuronos_tool_desc_t :=
  { name := some "calculate"
    description := some "Evaluate a mathematical expression (uses bc)."
    args_schema_json := some "\x7b\"type\":\"object\",\"properties\":\x7b\"expression\":\x7b\"type\":\"string\",\"description\":\"Math expression, e.g. 2+2, sqrt(144)\"\x7d\x7d,\"required\":[\"expression\"]\x7d"
    execute := some exec_fn
    required_caps := 0 }

/-- `neuronos_tool_register_defaults`: registers `shell` when
`allowed_caps & NEURONOS_CAP_SHELL` is non-zero, `read_file` and
`write_file` when `allowed_caps & NEURONOS_CAP_FILESYSTEM` is non-zero,
and `calculate` unconditionally; counts the successes.  Returns the C
`int` result and the registry afterwards. -/
def neuronos_tool_register_defaults (reg : Option neuronos_tool_reg) (allowed_caps : Nat)
    (shell_fn read_fn write_fn calc_fn : String → neuronos_tool_result_t) :
    Int × Option neuronos_tool_reg :=
  match reg with
  | none => (-1, none)
  | some reg0 =>
    let st : neuronos_tool_reg × Int := (reg0, 0)
    let st := if allowed_caps &&& NEURONOS_CAP_SHELL ≠ 0 then
        let r := neuronos_tool_register st.1 (shell_tool_desc shell_fn)
        (r.2, if r.1 = 0 then st.2 + 1 else st.2)
      else st
    let st := if allowed_caps &&& NEURONOS_CAP_FILESYSTEM ≠ 0 then
        let r1 := neuronos_tool_register st.1 (read_file_tool_desc read_fn)
        let st1 := (r1.2, if r1.1 = 0 then st.2 + 1 else st.2)
        let r2 := neuronos_tool_register st1.1 (write_file_tool_desc write_fn)
        (r2.2, if r2.1 = 0 then st1.2 + 1 else st1.2)
      else st
    let r3 := neuronos_tool_register st.1 (calculate_tool_desc calc_fn)
    let st := (r3.2, if r3.1 = 0 then st.2 + 1 else st.2)
    (st.2, some st.1)

/-- A sequence of `neuronos_tool_register` calls starting from a freshly
created registry. -/
def register_sequence (descs : List neuronos_tool_desc_t) : neuronos_tool_reg :=
  descs.foldl (fun reg desc => (neuronos_tool_register reg desc).2) neuronos_tool_registry_create

/-- Whether a tool of the given name is registered. -/
def has_tool_named (reg : neuronos_tool_reg) (nm : String) : Bool :=
  reg.tools.any (fun t => t.name == some nm)

/- ================================================================
   Generic fold / sum helpers
   ================================================================ -/

/-- A left fold that only adds summands is a sum. -/
theorem foldl_add_eq_sum (f : Nat → Int) (a : Int) (m : Nat) :
    (List.range m).foldl (fun s j => s + f j) a = a + ∑ j in Finset.range m, f j := by
  induction m generalizing a with
  | zero => simp
  | succ m ih =>
    rw [List.range_succ, List.foldl_append, ih, Finset.sum_range_succ]
    simp [add_assoc]

/-- Splitting a sum over an initial segment. -/
theorem sum_range_add_int (F : Nat → Int) (a b : Nat) :
    ∑ i in Finset.range (a + b), F i
      = (∑ i in Finset.range a, F i) + ∑ i in Finset.range b, F (a + i) := by
  induction b with
  | zero => simp
  | succ b ih => rw [← Nat.add_assoc, Finset.sum_range_succ, ih, Finset.sum_range_succ, add_assoc]

/-- Collapsing a block-structured double sum into a single sum. -/
theorem sum_blocks_int (G : Nat → Int) (nb : Nat) :
    ∑ b in Finset.range nb, ∑ j in Finset.range 128, G (128 * b + j)
      = ∑ i in Finset.range (128 * nb), G i := by
  induction nb with
  | zero => simp
  | succ nb ih =>
    rw [Finset.sum_range_succ, ih, Nat.mul_succ, sum_range_add_int]

/- ================================================================
   Claim C1 — scalar vec_dot accumulates raw code × activation
   ================================================================ -/

/-- Nested fold of a block-structured accumulation is a double sum. -/
theorem foldl_foldl_eq_sum (F : Nat → Nat → Int) (nb : Nat) :
    (List.range nb).foldl
        (fun sum block => (List.range 128).foldl (fun s j => s + F block j) sum) 0
      = ∑ b in Finset.range nb, ∑ j in Finset.range 128, F b j := by
  have h1 : (fun (sum : Int) block => (List.range 128).foldl (fun s j => s + F block j) sum)
      = fun (sum : Int) block => sum + ∑ j in Finset.range 128, F block j :=
    funext fun s => funext fun b => foldl_add_eq_sum _ s 128
  rw [h1, foldl_add_eq_sum, zero_add]

/-- Claim C1: for `n` divisible by 128, each row's output of the scalar
`vec_dot_i2_i8` kernel is exactly the integer accumulator
`∑ j < n, raw(j) * y(j)`, where `raw(j)` is the raw unsigned 2-bit code
of weight `j` of that row (byte `j mod 32` of its 32-byte block, bit
offset `6 − 2·⌊j/32⌋` for the in-block index), multiplied by the int8
activation — with no conversion of the code into ternary `{−1,0,+1}`
and no scale factor applied inside the kernel. -/
theorem vec_dot_i2_i8_raw_accumulation (n : Nat) (x : Nat → Nat) (bx : Nat) (y : Nat → Int)
    (row : Nat) (h : 128 ∣ n) :
    scalar_vec_dot_i2_i8 n x bx y row
      = ∑ j in Finset.range n, (i2_field (fun p => x (row * (bx / 4) + p)) j : Int) * y j := by
  obtain ⟨nb, rfl⟩ := h
  have hdiv : 128 * nb / SCALAR_QK_I2_S = nb := by unfold SCALAR_QK_I2_S; omega
  have key := foldl_foldl_eq_sum
    (fun block j =>
      (((x (row * (bx / 4) + (block * 32 + j % 32)) >>> (6 - 2 * (j / 32))) &&& 3 : Nat) : Int)
        * y (block * 128 + j)) nb
  have lhs_eq : scalar_vec_dot_i2_i8 (128 * nb) x bx y row
      = ∑ b in Finset.range nb, ∑ j in Finset.range 128,
          (((x (row * (bx / 4) + (b * 32 + j % 32)) >>> (6 - 2 * (j / 32))) &&& 3 : Nat) : Int)
            * y (b * 128 + j) := by
    unfold scalar_vec_dot_i2_i8
    rw [hdiv]
    exact key
  rw [lhs_eq, ← sum_blocks_int]
  refine Finset.sum_congr rfl (fun b hb => Finset.sum_congr rfl (fun j hj => ?_))
  have hj' : j < 128 := Finset.mem_range.mp hj
  unfold i2_field
  have e1 : (128 * b + j) / 128 * 32 + (128 * b + j) % 32 = b * 32 + j % 32 := by omega
  have e2 : (128 * b + j) / 32 % 4 = j / 32 := by omega
  have e3 : b * 128 + j = 128 * b + j := by omega
  rw [e1, e2, e3]

/-- Witness for C1 at a concrete input. -/
theorem vec_dot_i2_i8_raw_accumulation_witness :
    (128 : Nat) ∣ 128 ∧
      scalar_vec_dot_i2_i8 128 (fun _ => 85) 0 (fun _ => 1) 0
        = ∑ j in Finset.range 128, (i2_field (fun p => (fun _ => 85) (0 * (0 / 4) + p)) j : Int)
            * (fun _ => (1 : Int)) j :=
  ⟨⟨1, rfl⟩, vec_dot_i2_i8_raw_accumulation 128 (fun _ => 85) 0 (fun _ => 1) 0 ⟨1, rfl⟩⟩

/- ================================================================
   Claim C5 — model budget
   ================================================================ -/

/-- Claim C5: the hardware probe's model budget is
`max(256, ram_available_mb − 500)`. -/
theorem model_budget_is_clamped_available (ram_available_mb : Int) :
    neuronos_model_budget_mb ram_available_mb = max 256 (ram_available_mb - 500) := by
  simp only [neuronos_model_budget_mb, max_def]
  split <;> split <;> omega

/- ================================================================
   Claim C6 — registration failures leave the registry unchanged
   ================================================================ -/

/-- Claim C6: `neuronos_tool_register` fails (returns `-1`) and leaves
the registry entirely unchanged — same count and same entries in the
same order — on a duplicate name, a NULL executor, or a full registry. -/
theorem tool_register_fail_no_mutation (reg : neuronos_tool_reg) (desc : neuronos_tool_desc_t)
    (h : desc.execute = none ∨ NEURONOS_MAX_TOOLS ≤ reg.tools.length ∨
      ∃ nm, desc.name = some nm ∧ reg.tools.any (fun t => t.name == some nm) = true) :
    neuronos_tool_register reg desc = (-1, reg) := by
  obtain ⟨dname, ddescr, dschema, dexec, dcaps⟩ := desc
  rcases dname with _ | nm
  · rfl
  · rcases dexec with _ | f
    · rfl
    · rcases h with h | h | h
      · exact absurd h (by simp)
      · show (if NEURONOS_MAX_TOOLS ≤ reg.tools.length then ((-1 : Int), reg)
          else if reg.tools.any (fun t => t.name == some nm) then ((-1 : Int), reg)
          else (0, ⟨reg.tools ++ [⟨some nm, ddescr, dschema, some f, dcaps⟩]⟩)) = ((-1 : Int), reg)
        rw [if_pos h]
      · obtain ⟨nm', hnm, hany⟩ := h
        obtain rfl : nm = nm' := by simpa using hnm
        show (if NEURONOS_MAX_TOOLS ≤ reg.tools.length then ((-1 : Int), reg)
          else if reg.tools.any (fun t => t.name == some nm) then ((-1 : Int), reg)
          else (0, ⟨reg.tools ++ [⟨some nm, ddescr, dschema, some f, dcaps⟩]⟩)) = ((-1 : Int), reg)
        split <;> simp [hany]

/-- Witness for C6: registering a duplicate name is rejected without
mutation. -/
theorem tool_register_fail_no_mutation_witness :
    neuronos_tool_register ⟨[⟨some "dup", none, none, some null_executor, 0⟩]⟩
        ⟨some "dup", none, none, some null_executor, 0⟩
      = (-1, ⟨[⟨some "dup", none, none, some null_executor, 0⟩]⟩) :=
  tool_register_fail_no_mutation _ _ (Or.inr (Or.inr ⟨"dup", rfl, by decide⟩))

/- ================================================================
   Bit-packing helpers
   ================================================================ -/

/-- `a ||| v = a + v` when `a` lives above bit `k` and `v` below it. -/
theorem lor_eq_add_of_lt {k a v : Nat} (ha : a % 2 ^ k = 0) (hv : v < 2 ^ k) :
    a ||| v = a + v := by
  obtain ⟨c, rfl⟩ : 2 ^ k ∣ a := Nat.dvd_of_mod_eq_zero ha
  apply Nat.eq_of_testBit_eq
  intro i
  rw [Nat.testBit_lor, Nat.testBit_mul_pow_two_add c hv i]
  by_cases hik : i < k
  · rw [if_pos hik, Nat.testBit_mul_pow_two]
    have h1 : ¬(i ≥ k) := by omega
    simp [h1]
  · rw [if_neg hik, Nat.testBit_mul_pow_two]
    have hv' : v < 2 ^ i := lt_of_lt_of_le hv (Nat.pow_le_pow_right (by norm_num) (by omega))
    rw [Nat.testBit_lt_two_pow hv']
    have h2 : i ≥ k := by omega
    simp [h2]

/-- Divisibility and size of a partially filled packed byte. -/
theorem fieldSum_facts (q8 : Nat → Nat) (hq : ∀ i, q8 i < 4) (base r : Nat) (G : Nat)
    (hG : G ≤ 3) :
    fieldSum q8 base r G % 2 ^ (8 - 2 * G) = 0 ∧ fieldSum q8 base r G < 256 := by
  have h0 := hq (base + r)
  have h1 := hq (base + 32 + r)
  have h2 := hq (base + 64 + r)
  interval_cases G <;> norm_num [fieldSum] <;> omega

/-- The packing loop leaves bytes outside the block untouched. -/
theorem pack_block_into_ne (q8 : Nat → Nat) (blk : Nat) (out : Nat → Nat) (p : Nat)
    (hp : ∀ r, r < 32 → p ≠ blk * 32 + r) : pack_block_into q8 blk out p = out p := by
  unfold pack_block_into
  generalize List.range SCALAR_QK_I2_S = l
  induction l generalizing out with
  | nil => rfl
  | cons j l ih =>
    rw [List.foldl_cons]
    rw [ih]
    exact if_neg (hp (j % 32) (Nat.mod_lt _ (by norm_num)))

/-- Running value of the packing loop on byte `blk*32 + r` after the
first `m` iterations: exactly the 2-bit groups `g` with `32*g + r < m`
are in place. -/
theorem pack_loop_groups (q8 : Nat → Nat) (hq : ∀ i, q8 i < 4) (blk : Nat) (out : Nat → Nat)
    (r : Nat) (hr : r < 32) (h0 : out (blk * 32 + r) = 0) :
    ∀ m, m ≤ 128 →
      ((List.range m).foldl
        (fun out j => fun p =>
          if p = blk * 32 + j % 32
          then out p ||| (q8 (blk * SCALAR_QK_I2_S + j) <<< (6 - 2 * (j / 32)))
          else out p)
        out) (blk * 32 + r)
      = fieldSum q8 (blk * 128) r ((m + 31 - r) / 32) := by
  intro m
  induction m with
  | zero =>
    intro _
    have hc : (0 + 31 - r) / 32 = 0 := by omega
    rw [hc, List.range_zero, List.foldl_nil, h0]
    rfl
  | succ m ih =>
    intro hm
    have hm' : m ≤ 128 := by omega
    by_cases hc : r = m % 32
    · have hif : blk * 32 + r = blk * 32 + m % 32 := by omega
      have hG : (m + 31 - r) / 32 = m / 32 := by omega
      have hG' : (m + 1 + 31 - r) / 32 = m / 32 + 1 := by omega
      have hG3 : m / 32 ≤ 3 := by omega
      obtain ⟨hmod, _⟩ := fieldSum_facts q8 hq (blk * 128) r (m / 32) hG3
      have hvlt : q8 (blk * SCALAR_QK_I2_S + m) <<< (6 - 2 * (m / 32)) < 2 ^ (8 - 2 * (m / 32)) := by
        rw [Nat.shiftLeft_eq]
        have hlt := hq (blk * SCALAR_QK_I2_S + m)
        have hpow : 2 ^ (8 - 2 * (m / 32)) = 4 * 2 ^ (6 - 2 * (m / 32)) := by
          have h82 : 8 - 2 * (m / 32) = 2 + (6 - 2 * (m / 32)) := by omega
          rw [h82, pow_add]
          norm_num
        rw [hpow]
        exact mul_lt_mul_of_pos_right hlt (by positivity)
      have hidx : blk * SCALAR_QK_I2_S + m = blk * 128 + 32 * (m / 32) + r := by
        unfold SCALAR_QK_I2_S
        omega
      have ihm := ih hm'
      simp only [List.range_succ, List.foldl_append, List.foldl_cons, List.foldl_nil]
      rw [if_pos hif, ihm, hG, hG']
      rw [lor_eq_add_of_lt hmod hvlt, Nat.shiftLeft_eq, hidx]
      rfl
    · have hif : blk * 32 + r ≠ blk * 32 + m % 32 := by omega
      have hcnt : (m + 1 + 31 - r) / 32 = (m + 31 - r) / 32 := by omega
      have ihm := ih hm'
      simp only [List.range_succ, List.foldl_append, List.foldl_cons, List.foldl_nil]
      rw [if_neg hif, ihm, hcnt]

/-- The value of one fully packed byte inside its block. -/
theorem pack_block_into_at (q8 : Nat → Nat) (hq : ∀ i, q8 i < 4) (blk : Nat) (out : Nat → Nat)
    (r : Nat) (hr : r < 32) (h0 : out (blk * 32 + r) = 0) :
    pack_block_into q8 blk out (blk * 32 + r) = fieldSum q8 (blk * 128) r 4 := by
  have hc : (128 + 31 - r) / 32 = 4 := by omega
  have h := pack_loop_groups q8 hq blk out r hr h0 128 (le_refl _)
  rw [hc] at h
  exact h

/-- Bytes at or beyond `32 * num_blocks` stay zero. -/
theorem quant_pack_zero (q8 : Nat → Nat) (nb : Nat) (p : Nat) (hp : 32 * nb ≤ p) :
    quant_pack q8 nb p = 0 := by
  unfold quant_pack
  induction nb with
  | zero => rfl
  | succ nb ih =>
    rw [List.range_succ, List.foldl_append, List.foldl_cons, List.foldl_nil]
    rw [pack_block_into_ne]
    · exact ih (by omega)
    · intro r hrlt
      omega

/-- The value of every byte of the packed output. -/
theorem quant_pack_byte (q8 : Nat → Nat) (hq : ∀ i, q8 i < 4) (nb : Nat) (B : Nat)
    (hB : B < 32 * nb) :
    quant_pack q8 nb B = fieldSum q8 (B / 32 * 128) (B % 32) 4 := by
  induction nb with
  | zero => omega
  | succ nb ih =>
    have hstep : quant_pack q8 (nb + 1) = pack_block_into q8 nb (quant_pack q8 nb) := by
      unfold quant_pack
      rw [List.range_succ, List.foldl_append, List.foldl_cons, List.foldl_nil]
    rw [hstep]
    by_cases hB' : B < 32 * nb
    · rw [pack_block_into_ne]
      · exact ih hB'
      · intro r hrlt
        omega
    · have hBeq : B = nb * 32 + B % 32 := by omega
      have hdiv : B / 32 = nb := by omega
      rw [hBeq, pack_block_into_at q8 hq nb _ (B % 32) (by omega) (quant_pack_zero q8 nb _ (by omega))]
      rw [← hBeq, hdiv]

/-- Extracting any weight's 2-bit field from the packed output recovers
its raw code. -/
theorem quant_pack_field (q8 : Nat → Nat) (hq : ∀ i, q8 i < 4) (nb : Nat) (i : Nat)
    (hi : i < 128 * nb) :
    i2_field (quant_pack q8 nb) i = q8 i := by
  unfold i2_field
  have hB : i / 128 * 32 + i % 32 < 32 * nb := by omega
  rw [quant_pack_byte q8 hq nb _ hB]
  have hd : (i / 128 * 32 + i % 32) / 32 = i / 128 := by omega
  have hm : (i / 128 * 32 + i % 32) % 32 = i % 32 := by omega
  rw [hd, hm]
  have e0 : fieldSum q8 (i / 128 * 128) (i % 32) 4
      = q8 (i / 128 * 128 + i % 32) * 64
        + q8 (i / 128 * 128 + 32 + i % 32) * 16
        + q8 (i / 128 * 128 + 64 + i % 32) * 4
        + q8 (i / 128 * 128 + 96 + i % 32) := by
    norm_num [fieldSum]
  rw [e0, Nat.shiftRight_eq_div_pow]
  have hand : ∀ t : Nat, t &&& 3 = t % 4 := by
    intro t
    have h := Nat.and_pow_two_sub_one_eq_mod t 2
    norm_num at h
    exact h
  rw [hand]
  have ha := hq (i / 128 * 128 + i % 32)
  have hb := hq (i / 128 * 128 + 32 + i % 32)
  have hcq := hq (i / 128 * 128 + 64 + i % 32)
  have hdq := hq (i / 128 * 128 + 96 + i % 32)
  have hcases : i / 32 % 4 = 0 ∨ i / 32 % 4 = 1 ∨ i / 32 % 4 = 2 ∨ i / 32 % 4 = 3 := by omega
  rcases hcases with hg | hg | hg | hg <;> rw [hg]
  · have hieq : i = i / 128 * 128 + i % 32 := by omega
    rw [congrArg q8 hieq]
    norm_num
    omega
  · have hieq : i = i / 128 * 128 + 32 + i % 32 := by omega
    rw [congrArg q8 hieq]
    norm_num
    omega
  · have hieq : i = i / 128 * 128 + 64 + i % 32 := by omega
    rw [congrArg q8 hieq]
    norm_num
    omega
  · have hieq : i = i / 128 * 128 + 96 + i % 32 := by omega
    rw [congrArg q8 hieq]
    norm_num
    omega

/- ================================================================
   Claim C3 — packing round trip
   ================================================================ -/

/-- `&&& 3` is `% 4`. -/
theorem and_three_eq_mod (t : Nat) : t &&& 3 = t % 4 := by
  have h := Nat.and_pow_two_sub_one_eq_mod t 2
  norm_num at h
  exact h

/-- On a single block the two raw-code extractors agree. -/
theorem i2_get_raw_eq_field (x : Nat → Nat) (j : Nat) (hj : j < 128) :
    i2_get_raw x j = i2_field x j := by
  unfold i2_get_raw i2_field
  have h1 : j / 128 * 32 + j % 32 = j % 32 := by omega
  have h2 : j / 32 % 4 = j / 32 := by omega
  rw [h1, h2]

/-- Claim C3: packing a sequence of 128 raw values in `{0,1,2}` into 32
bytes per the layout (weight `j` in byte `j mod 32`, bit offset
`6 − 2·⌊j/32⌋`) and unpacking recovers the sequence; and packing the
unpacked fields of any 32-byte buffer of valid 2-bit codes gives back
the buffer byte for byte. -/
theorem pack_unpack_round_trip :
    (∀ q8 : Nat → Nat, (∀ i, q8 i < 3) → ∀ j, j < 128 →
        i2_get_raw (quant_pack q8 1) j = q8 j)
    ∧ (∀ x : Nat → Nat, (∀ p, x p < 256) → (∀ j, j < 128 → i2_get_raw x j < 3) →
        ∀ p, p < 32 → quant_pack (fun j => i2_get_raw x j) 1 p = x p) := by
  constructor
  · intro q8 hq j hj
    rw [i2_get_raw_eq_field _ _ hj]
    exact quant_pack_field q8 (fun i => Nat.lt_trans (hq i) (by norm_num)) 1 j (by omega)
  · intro x hx _ p hp
    have hq4 : ∀ j, (fun j => i2_get_raw x j) j < 4 := by
      intro j
      show i2_get_raw x j < 4
      unfold i2_get_raw
      rw [and_three_eq_mod]
      exact Nat.mod_lt _ (by norm_num)
    rw [quant_pack_byte _ hq4 1 p (by omega)]
    have hd : p / 32 = 0 := by omega
    have hm : p % 32 = p := by omega
    rw [hd, hm]
    have hmod : p % 32 = p := hm
    have hdiv0 : p / 32 = 0 := hd
    have u0 : i2_get_raw x p = x p / 64 % 4 := by
      unfold i2_get_raw
      rw [hmod, hdiv0, and_three_eq_mod, Nat.shiftRight_eq_div_pow]
    have u1 : i2_get_raw x (32 + p) = x p / 16 % 4 := by
      unfold i2_get_raw
      have e1 : (32 + p) % 32 = p := by omega
      have e2 : (32 + p) / 32 = 1 := by omega
      rw [e1, e2, and_three_eq_mod, Nat.shiftRight_eq_div_pow]
    have u2 : i2_get_raw x (64 + p) = x p / 4 % 4 := by
      unfold i2_get_raw
      have e1 : (64 + p) % 32 = p := by omega
      have e2 : (64 + p) / 32 = 2 := by omega
      rw [e1, e2, and_three_eq_mod, Nat.shiftRight_eq_div_pow]
    have u3 : i2_get_raw x (96 + p) = x p % 4 := by
      unfold i2_get_raw
      have e1 : (96 + p) % 32 = p := by omega
      have e2 : (96 + p) / 32 = 3 := by omega
      rw [e1, e2, and_three_eq_mod, Nat.shiftRight_eq_div_pow]
      norm_num
    have e0 : fieldSum (fun j => i2_get_raw x j) (0 * 128) p 4
        = i2_get_raw x p * 64 + i2_get_raw x (32 + p) * 16
          + i2_get_raw x (64 + p) * 4 + i2_get_raw x (96 + p) := by
      norm_num [fieldSum]
    rw [e0, u0, u1, u2, u3]
    have hxp := hx p
    omega

/-- Witness for C3 at a concrete code sequence. -/
theorem pack_unpack_round_trip_witness :
    i2_get_raw (quant_pack (fun i => i % 3) 1) 5 = 2 := by
  have h := pack_unpack_round_trip.1 (fun i => i % 3) (fun i => Nat.mod_lt _ (by norm_num)) 5
    (by norm_num)
  simpa using h

/- ================================================================
   Claim C2 — quantization f32 → I2_S
   ================================================================ -/

/-- The running maximum never drops below its start value. -/
theorem foldl_max_le_init (l : List ℚ) :
    ∀ a : ℚ, a ≤ l.foldl (fun max_val w => if |w| > max_val then |w| else max_val) a := by
  induction l with
  | nil => intro a; exact le_refl a
  | cons w l ih =>
    intro a
    rw [List.foldl_cons]
    refine le_trans ?_ (ih _)
    split
    · exact le_of_lt (by assumption)
    · exact le_refl a

/-- The computed scale dominates every `|w|` of the input. -/
theorem i2_max_abs_le (src : List ℚ) : ∀ w ∈ src, |w| ≤ i2_max_abs src := by
  unfold i2_max_abs
  suffices h : ∀ (l : List ℚ) (a : ℚ) (w : ℚ), w ∈ l →
      |w| ≤ l.foldl (fun max_val w => if |w| > max_val then |w| else max_val) a from
    fun w hw => h src 0 w hw
  intro l
  induction l with
  | nil => intro a w hw; cases hw
  | cons v l ih =>
    intro a w hw
    rw [List.foldl_cons]
    rcases List.mem_cons.mp hw with rfl | hw'
    · refine le_trans ?_ (foldl_max_le_init l _)
      split
      · exact le_refl _
      · exact le_of_not_lt (by assumption)
    · exact ih _ w hw'

/-- Unfolding equation for `scalar_quantize_i2`. -/
theorem scalar_quantize_i2_def (src : List ℚ) :
    scalar_quantize_i2 src
      = (quant_pack (fun i => (src.map (fun w => i2_code (i2_max_abs src) w)).getD i 0)
          (src.length / SCALAR_QK_I2_S), i2_max_abs src) := rfl

/-- `getD` through the quantization map. -/
theorem getD_map_i2_code (src : List ℚ) (s : ℚ) (i : Nat) (hi : i < src.length) :
    (src.map (fun w => i2_code s w)).getD i 0 = i2_code s (src.getD i 0) := by
  rw [List.getD_eq_getElem?_getD, List.getD_eq_getElem?_getD, List.getElem?_map,
    List.getElem?_eq_getElem hi]
  rfl

/-- Every emitted code is `0`, `1` or `2`. -/
theorem i2_code_lt (s w : ℚ) : i2_code s w < 3 := by
  unfold i2_code
  split_ifs <;> norm_num

/-- Claim C2, amended: the scale is `max |w|`; a weight with
`|w| < 1e-6` is emitted as raw `1` (the encoding of ternary `0` — the
claim said raw `2`, which the code contradicts), a positive weight as
raw `2`, any other as raw `0`; the codes are packed per the §3 layout
(weight `i` in byte `i mod 32` of block `i / 128`, bit offset
`6 − 2·⌊(i mod 128)/32⌋`) and the scale is the float stored after the
packed bytes. -/
theorem quantize_i2_spec (src : List ℚ) (h128 : 128 ∣ src.length) :
    (scalar_quantize_i2 src).2 = i2_max_abs src ∧
    ∀ i, i < src.length →
      i2_field (scalar_quantize_i2 src).1 i
        = (if |src.getD i 0| < 1 / 1000000 then 1 else if 0 < src.getD i 0 then 2 else 0) := by
  constructor
  · rfl
  · intro i hi
    rw [scalar_quantize_i2_def]
    have hq4 : ∀ k, (src.map (fun w => i2_code (i2_max_abs src) w)).getD k 0 < 4 := by
      intro k
      by_cases hk : k < src.length
      · rw [getD_map_i2_code src _ k hk]
        exact Nat.lt_trans (i2_code_lt _ _) (by norm_num)
      · rw [List.getD_eq_getElem?_getD, List.getElem?_eq_none (by simpa using not_lt.mp hk)]
        norm_num
    have hnb : i < 128 * (src.length / SCALAR_QK_I2_S) := by
      obtain ⟨c, hc⟩ := h128
      unfold SCALAR_QK_I2_S
      omega
    rw [quant_pack_field _ hq4 _ i hnb, getD_map_i2_code src _ i hi]
    unfold i2_code
    by_cases habs : |src.getD i 0| < 1 / 1000000
    · rw [if_pos habs, if_pos habs]
    · rw [if_neg habs, if_neg habs]
      have hmem : src.getD i 0 ∈ src := by
        rw [List.getD_eq_getElem?_getD, List.getElem?_eq_getElem hi]
        exact List.getElem_mem hi
      have hscale : (0 : ℚ) < i2_max_abs src := by
        have h1 := i2_max_abs_le src _ hmem
        have h2 : (1 : ℚ) / 1000000 ≤ |src.getD i 0| := not_lt.mp habs
        have h3 : (0 : ℚ) < 1 / 1000000 := by norm_num
        linarith
      by_cases hw : 0 < src.getD i 0
      · rw [if_pos (mul_pos hw hscale), if_pos hw]
      · have hnp : ¬(src.getD i 0 * i2_max_abs src > 0) := by
          have hw' : src.getD i 0 ≤ 0 := not_lt.mp hw
          nlinarith
        rw [if_neg hnp, if_neg hw]

/-- Counterexample to C2 as stated: quantizing a block of zero weights
emits raw code 1 (ternary 0), not raw code 2 as the claim says. -/
theorem quantize_i2_zero_weight_cex :
    i2_field (scalar_quantize_i2 (List.replicate 128 (0 : ℚ))).1 0 = 1 ∧
    i2_field (scalar_quantize_i2 (List.replicate 128 (0 : ℚ))).1 0 ≠ 2 := by
  have hmap : (List.replicate 128 (0 : ℚ)).map
        (fun w => i2_code (i2_max_abs (List.replicate 128 (0 : ℚ))) w)
      = List.replicate 128 1 := by
    rw [List.map_replicate]
    congr 1
    unfold i2_code
    norm_num
  have hlen : (List.replicate 128 (0 : ℚ)).length / SCALAR_QK_I2_S = 1 := by
    simp [SCALAR_QK_I2_S]
  have hval : i2_field (scalar_quantize_i2 (List.replicate 128 (0 : ℚ))).1 0 = 1 := by
    rw [scalar_quantize_i2_def]
    simp only [hmap, hlen]
    have hq4 : ∀ k, (List.replicate 128 (1 : Nat)).getD k 0 < 4 := by
      intro k
      rw [List.getD_eq_getElem?_getD, List.getElem?_replicate]
      split <;> norm_num
    rw [quant_pack_field _ hq4 1 0 (by norm_num)]
    rw [List.getD_eq_getElem?_getD, List.getElem?_replicate]
    norm_num
  exact ⟨hval, by rw [hval]; norm_num⟩

/-- Witness for C2 at a concrete input (a block of ones). -/
theorem quantize_i2_spec_witness :
    (128 ∣ (List.replicate 128 (1 : ℚ)).length) ∧
    (scalar_quantize_i2 (List.replicate 128 (1 : ℚ))).2 = i2_max_abs (List.replicate 128 (1 : ℚ)) ∧
    i2_field (scalar_quantize_i2 (List.replicate 128 (1 : ℚ))).1 0
      = (if |(List.replicate 128 (1 : ℚ)).getD 0 0| < 1 / 1000000 then 1
         else if 0 < (List.replicate 128 (1 : ℚ)).getD 0 0 then 2 else 0) := by
  refine ⟨by simp, (quantize_i2_spec _ (by simp)).1, (quantize_i2_spec _ (by simp)).2 0 (by simp)⟩

/- ================================================================
   Claim C4 — model scoring
   ================================================================ -/

/-- C truncating division by `1e9` against the claim's parameter bands:
for positive thresholds the two agree on all of `Int`. -/
theorem tdiv_band (p : Int) (k : Int) (hk : 0 < k) :
    (k ≤ p.tdiv 1000000000) ↔ (k * 1000000000 ≤ p) := by
  rcases p with m | m
  · rw [show (Int.ofNat m).tdiv 1000000000 = ((m / 1000000000 : Nat) : Int) from rfl,
      Int.ofNat_eq_coe]
    omega
  · rw [show (Int.negSucc m).tdiv 1000000000 = -(((m + 1) / 1000000000 : Nat) : Int) from rfl,
      Int.negSucc_eq]
    omega

/-- Counterexample to C4 as stated: a model named `Model-Instruct` gets
the +15 bonus from the source (which matches the substring `nstruct`),
but not from the claim's pattern set `{instruct, chat, Chat}`. -/
theorem score_model_instruct_cex :
    score_model ⟨"", "Model-Instruct".data, 0, 100, 0, true, 0⟩
        ⟨"", "", 0, 0, 0, 0, 1000, "", 0, 0⟩
      ≠ claim_score ⟨"", "Model-Instruct".data, 0, 100, 0, true, 0⟩
        ⟨"", "", 0, 0, 0, 0, 1000, "", 0, 0⟩ := by
  have c1 : ¬("i2_s".data <:+: "Model-Instruct".data) := by decide
  have c2 : ¬("I2_S".data <:+: "Model-Instruct".data) := by decide
  have c3 : ¬("1.58".data <:+: "Model-Instruct".data) := by decide
  have c4 : ¬("bitnet".data <:+: "Model-Instruct".data) := by decide
  have c5 : ¬("BitNet".data <:+: "Model-Instruct".data) := by decide
  have c6 : "nstruct".data <:+: "Model-Instruct".data := by decide
  have d1 : ¬ name_matches ["i2_s".data, "I2_S".data, "1.58".data, "bitnet".data, "BitNet".data]
      ("Model-Instruct".data) := by decide
  have d2 : ¬ name_matches ["instruct".data, "chat".data, "Chat".data]
      ("Model-Instruct".data) := by decide
  have hL : score_model ⟨"", "Model-Instruct".data, 0, 100, 0, true, 0⟩
      ⟨"", "", 0, 0, 0, 0, 1000, "", 0, 0⟩ = 1070 := by
    norm_num [score_model, c1, c2, c3, c4, c5, c6, Int.zero_tdiv]
  have hR : claim_score ⟨"", "Model-Instruct".data, 0, 100, 0, true, 0⟩
      ⟨"", "", 0, 0, 0, 0, 1000, "", 0, 0⟩ = 1055 := by
    norm_num [claim_score, quality_tier_claim, d1, d2]
  rw [hL, hR]
  norm_num

/-- Claim C4, amended: the score is as the claim says except that the
+15 instruct/chat bonus is triggered by the pattern set
`{nstruct, chat, Chat}` (substring matching, so both `instruct` and
`Instruct` qualify). -/
theorem score_model_matches_claim (entry : neuronos_model_entry_t) (hw : neuronos_hw_info_t) :
    score_model entry hw = claim_score_amended entry hw := by
  have h8 := tdiv_band entry.n_params_est 8 (by norm_num)
  have h4 := tdiv_band entry.n_params_est 4 (by norm_num)
  have h2 := tdiv_band entry.n_params_est 2 (by norm_num)
  have h1 := tdiv_band entry.n_params_est 1 (by norm_num)
  have hm25 : name_matches ["i2_s".data, "I2_S".data, "1.58".data, "bitnet".data, "BitNet".data]
      entry.name
      ↔ ("i2_s".data <:+: entry.name ∨ "I2_S".data <:+: entry.name ∨
          "1.58".data <:+: entry.name ∨ "bitnet".data <:+: entry.name ∨
          "BitNet".data <:+: entry.name) := by
    simp [name_matches]
  have hm15 : name_matches ["nstruct".data, "chat".data, "Chat".data] entry.name
      ↔ ("nstruct".data <:+: entry.name ∨ "chat".data <:+: entry.name ∨
          "Chat".data <:+: entry.name) := by
    simp [name_matches]
  simp only [score_model, claim_score_amended, quality_tier_claim, h8, h4, h2, h1, hm25, hm15]
  split_ifs <;> ring

/- ================================================================
   Claim C9 — execute is total at the public interface
   ================================================================ -/

/-- Claim C9: a NULL registry or NULL tool name yields
`{success=false, error="Invalid arguments"}` without reaching any
executor, and a NULL argument string is replaced by `"{}"` before the
found tool's executor is called. -/
theorem tool_execute_total :
    (∀ (tool_name args : Option String),
        neuronos_tool_execute none tool_name args
          = ⟨false, none, some "Invalid arguments"⟩) ∧
    (∀ (reg : neuronos_tool_reg) (args : Option String),
        neuronos_tool_execute (some reg) none args
          = ⟨false, none, some "Invalid arguments"⟩) ∧
    (∀ (reg : neuronos_tool_reg) (nm : String) (t : neuronos_tool_desc_t)
        (f : String → neuronos_tool_result_t),
        reg.tools.find? (fun t => t.name == some nm) = some t → t.execute = some f →
        neuronos_tool_execute (some reg) (some nm) none = f json_empty_object) := by
  refine ⟨?_, ?_, ?_⟩
  · intro tool_name args
    cases tool_name <;> rfl
  · intro reg args
    rfl
  · intro reg nm t f hfind hexec
    simp only [neuronos_tool_execute, hfind, hexec]
    rfl

/-- Witness for C9 at a concrete registry. -/
theorem tool_execute_total_witness :
    neuronos_tool_execute
        (some ⟨[⟨some "echo", none, none, some (fun s => ⟨true, some s, none⟩), 0⟩]⟩)
        (some "echo") none
      = (fun s => neuronos_tool_result_t.mk true (some s) none) json_empty_object :=
  tool_execute_total.2.2 ⟨[⟨some "echo", none, none, some (fun s => ⟨true, some s, none⟩), 0⟩]⟩
    "echo" ⟨some "echo", none, none, some (fun s => ⟨true, some s, none⟩), 0⟩
    (fun s => ⟨true, some s, none⟩) rfl rfl

/- ================================================================
   Claim C7 — capability gating
   ================================================================ -/

/-- Counterexample to C7 as stated: with granted mask `0`, executing a
registered tool whose required capability mask is `1` still runs its
executor — `neuronos_tool_execute` performs no capability check. -/
theorem capability_gating_cex :
    neuronos_tool_execute
        (some ⟨[⟨some "t", none, none, some (fun _ => ⟨true, some "ran", none⟩), 1⟩]⟩)
        (some "t") none
      = ⟨true, some "ran", none⟩ ∧ (0 &&& 1 : Nat) ≠ 1 :=
  ⟨rfl, by decide⟩

/-- Claim C7, amended: `neuronos_tool_execute` runs the executor of any
registered tool regardless of any capability mask; capability gating
happens at registration time instead — `neuronos_tool_register_defaults`
registers a built-in tool with required capability mask `C` iff
`(allowed & C) == C`, so a gated-out tool is simply absent ("Tool not
found") and its executor unreachable. -/
theorem capability_gating_amended :
    (∀ (reg : neuronos_tool_reg) (nm : String) (args : Option String)
        (t : neuronos_tool_desc_t) (f : String → neuronos_tool_result_t),
        reg.tools.find? (fun t => t.name == some nm) = some t → t.execute = some f →
        neuronos_tool_execute (some reg) (some nm) args = f (args.getD json_empty_object)) ∧
    (∀ (reg : neuronos_tool_reg) (nm : String),
        reg.tools.find? (fun t => t.name == some nm) = none →
        neuronos_tool_execute (some reg) (some nm) none
          = ⟨false, none, some "Tool not found"⟩) ∧
    (∀ (allowed : Nat) (sf rf wf cf : String → neuronos_tool_result_t)
        (reg' : neuronos_tool_reg),
        (neuronos_tool_register_defaults (some neuronos_tool_registry_create)
            allowed sf rf wf cf).2 = some reg' →
        ((has_tool_named reg' "shell" = true ↔
            allowed &&& NEURONOS_CAP_SHELL = NEURONOS_CAP_SHELL) ∧
         (has_tool_named reg' "read_file" = true ↔
            allowed &&& NEURONOS_CAP_FILESYSTEM = NEURONOS_CAP_FILESYSTEM) ∧
         (has_tool_named reg' "write_file" = true ↔
            allowed &&& NEURONOS_CAP_FILESYSTEM = NEURONOS_CAP_FILESYSTEM) ∧
         has_tool_named reg' "calculate" = true)) := by
  refine ⟨?_, ?_, ?_⟩
  · intro reg nm args t f hfind hexec
    simp only [neuronos_tool_execute, hfind, hexec]
    rfl
  · intro reg nm hfind
    simp only [neuronos_tool_execute, hfind]
  · intro allowed sf rf wf cf reg' hdef
    have hand1 : allowed &&& 1 = allowed % 2 := Nat.and_one_is_mod allowed
    have hand2 : allowed &&& 2 = 0 ∨ allowed &&& 2 = 2 := by
      have h2p : allowed &&& 2 = (allowed.testBit 1).toNat * 2 := by
        have h2w := Nat.and_two_pow allowed 1
        norm_num at h2w
        exact h2w
      cases hb : allowed.testBit 1
      · left; rw [hb] at h2p; simpa using h2p
      · right; rw [hb] at h2p; simpa using h2p
    by_cases h1 : allowed % 2 = 0 <;> by_cases h2 : allowed &&& 2 = 0
    · simp [neuronos_tool_register_defaults, neuronos_tool_registry_create,
        neuronos_tool_register, shell_tool_desc, read_file_tool_desc, write_file_tool_desc,
        calculate_tool_desc, NEURONOS_CAP_SHELL, NEURONOS_CAP_FILESYSTEM, NEURONOS_MAX_TOOLS,
        hand1, h1, h2] at hdef
      subst hdef
      refine ⟨?_, ?_, ?_, ?_⟩ <;>
        simp [has_tool_named, shell_tool_desc, read_file_tool_desc, write_file_tool_desc,
          calculate_tool_desc, NEURONOS_CAP_SHELL, NEURONOS_CAP_FILESYSTEM, hand1] <;>
        omega
    · have h1' : allowed % 2 = 0 := h1
      simp [neuronos_tool_register_defaults, neuronos_tool_registry_create,
        neuronos_tool_register, shell_tool_desc, read_file_tool_desc, write_file_tool_desc,
        calculate_tool_desc, NEURONOS_CAP_SHELL, NEURONOS_CAP_FILESYSTEM, NEURONOS_MAX_TOOLS,
        hand1, h1', h2] at hdef
      subst hdef
      have hfs : allowed &&& 2 = 2 := by
        rcases hand2 with ha | ha
        · exact absurd ha h2
        · exact ha
      refine ⟨?_, ?_, ?_, ?_⟩ <;>
        simp [has_tool_named, shell_tool_desc, read_file_tool_desc, write_file_tool_desc,
          calculate_tool_desc, NEURONOS_CAP_SHELL, NEURONOS_CAP_FILESYSTEM, hand1, hfs] <;>
        omega
    · have h1' : allowed % 2 = 1 := by omega
      simp [neuronos_tool_register_defaults, neuronos_tool_registry_create,
        neuronos_tool_register, shell_tool_desc, read_file_tool_desc, write_file_tool_desc,
        calculate_tool_desc, NEURONOS_CAP_SHELL, NEURONOS_CAP_FILESYSTEM, NEURONOS_MAX_TOOLS,
        hand1, h1', h2] at hdef
      subst hdef
      refine ⟨?_, ?_, ?_, ?_⟩ <;>
        simp [has_tool_named, shell_tool_desc, read_file_tool_desc, write_file_tool_desc,
          calculate_tool_desc, NEURONOS_CAP_SHELL, NEURONOS_CAP_FILESYSTEM, hand1, h1'] <;>
        omega
    · have h1' : allowed % 2 = 1 := by omega
      simp [neuronos_tool_register_defaults, neuronos_tool_registry_create,
        neuronos_tool_register, shell_tool_desc, read_file_tool_desc, write_file_tool_desc,
        calculate_tool_desc, NEURONOS_CAP_SHELL, NEURONOS_CAP_FILESYSTEM, NEURONOS_MAX_TOOLS,
        hand1, h1', h2] at hdef
      subst hdef
      have hfs : allowed &&& 2 = 2 := by
        rcases hand2 with ha | ha
        · exact absurd ha h2
        · exact ha
      refine ⟨?_, ?_, ?_, ?_⟩ <;>
        simp [has_tool_named, shell_tool_desc, read_file_tool_desc, write_file_tool_desc,
          calculate_tool_desc, NEURONOS_CAP_SHELL, NEURONOS_CAP_FILESYSTEM, hand1, h1', hfs]

/-- Witness for C7 at a concrete mask: with `allowed = 2` only the
filesystem tools and `calculate` are registered. -/
theorem capability_gating_amended_witness :
    (has_tool_named ⟨[read_file_tool_desc null_executor, write_file_tool_desc null_executor,
        calculate_tool_desc null_executor]⟩ "shell" = true ↔
      (2 : Nat) &&& NEURONOS_CAP_SHELL = NEURONOS_CAP_SHELL) ∧
    (has_tool_named ⟨[read_file_tool_desc null_executor, write_file_tool_desc null_executor,
        calculate_tool_desc null_executor]⟩ "read_file" = true ↔
      (2 : Nat) &&& NEURONOS_CAP_FILESYSTEM = NEURONOS_CAP_FILESYSTEM) ∧
    (has_tool_named ⟨[read_file_tool_desc null_executor, write_file_tool_desc null_executor,
        calculate_tool_desc null_executor]⟩ "write_file" = true ↔
      (2 : Nat) &&& NEURONOS_CAP_FILESYSTEM = NEURONOS_CAP_FILESYSTEM) ∧
    has_tool_named ⟨[read_file_tool_desc null_executor, write_file_tool_desc null_executor,
        calculate_tool_desc null_executor]⟩ "calculate" = true :=
  capability_gating_amended.2.2 2 null_executor null_executor null_executor null_executor
    ⟨[read_file_tool_desc null_executor, write_file_tool_desc null_executor,
      calculate_tool_desc null_executor]⟩ rfl

/- ================================================================
   Claim C8 — grammar fragment generation
   ================================================================ -/

/-- Appending one tool extends the rest-of-rule string. -/
theorem grammar_rest_append (l : List neuronos_tool_desc_t) (t : neuronos_tool_desc_t) :
    grammar_rest (l ++ [t])
      = grammar_rest l ++ (" | " ++ "\"\\\"" ++ t.name.getD "" ++ "\\\"\"") := by
  induction l with
  | nil => simp [grammar_rest]
  | cons a l ih => simp [grammar_rest, ih, String.append_assoc]

/-- The registry fold computes the expected rule body and count. -/
theorem grammar_fold_inv (l : List neuronos_tool_desc_t) :
    l.foldl
      (fun acc t =>
        let buf := acc.1
        let i := acc.2
        let buf := if 0 < i then buf ++ " | " else buf
        (buf ++ "\"\\\"" ++ t.name.getD "" ++ "\\\"\"", i + 1))
      ("tool-name ::= ", (0 : Nat))
    = ("tool-name ::= " ++ grammar_items l, l.length) := by
  induction l using List.reverseRecOn with
  | nil => simp [grammar_items]
  | append_singleton l t ih =>
    rw [List.foldl_append, ih, List.foldl_cons, List.foldl_nil]
    rcases l with _ | ⟨a, l'⟩
    · simp [grammar_items, grammar_rest, String.append_assoc]
      rfl
    · simp only [grammar_items, grammar_rest_append, List.cons_append, List.length_cons,
        Nat.succ_sub_one]
      simp [grammar_items, String.append_assoc]

/-- Claim C8: the grammar generator returns exactly
`tool-name ::= "\"noop\""` for a NULL or empty registry, and for a
non-empty registry it emits the quoted registered names, in
registration order, separated by `|`. -/
theorem grammar_names_spec :
    neuronos_tool_grammar_names none = "tool-name ::= \"\\\"noop\\\"\"" ∧
    (∀ reg : neuronos_tool_reg, reg.tools = [] →
      neuronos_tool_grammar_names (some reg) = "tool-name ::= \"\\\"noop\\\"\"") ∧
    (∀ reg : neuronos_tool_reg, reg.tools ≠ [] →
      neuronos_tool_grammar_names (some reg) = "tool-name ::= " ++ grammar_items reg.tools) := by
  refine ⟨rfl, ?_, ?_⟩
  · intro reg h
    simp [neuronos_tool_grammar_names, h]
  · intro reg h
    have hlen : ¬(reg.tools.length = 0) := fun h0 => h (List.length_eq_zero.mp h0)
    simp only [neuronos_tool_grammar_names]
    rw [if_neg hlen, grammar_fold_inv]

/-- Witness for C8 at a two-tool registry. -/
theorem grammar_names_spec_witness :
    neuronos_tool_grammar_names
        (some ⟨[⟨some "shell", none, none, some null_executor, 1⟩,
          ⟨some "read_file", none, none, some null_executor, 2⟩]⟩)
      = "tool-name ::= " ++ grammar_items
          [⟨some "shell", none, none, some null_executor, 1⟩,
            ⟨some "read_file", none, none, some null_executor, 2⟩] :=
  grammar_names_spec.2.2
    ⟨[⟨some "shell", none, none, some null_executor, 1⟩,
      ⟨some "read_file", none, none, some null_executor, 2⟩]⟩ (by simp)

/- ================================================================
   Claim C10 — registry invariant under register sequences
   ================================================================ -/

/-- One `register` call preserves the registry invariant. -/
theorem register_preserves_inv (reg : neuronos_tool_reg) (d : neuronos_tool_desc_t)
    (hlen : reg.tools.length ≤ 64) (hsome : ∀ t ∈ reg.tools, t.name ≠ none)
    (hnodup : (reg.tools.map (fun t => t.name)).Nodup) :
    ((neuronos_tool_register reg d).2).tools.length ≤ 64 ∧
    (∀ t ∈ ((neuronos_tool_register reg d).2).tools, t.name ≠ none) ∧
    (((neuronos_tool_register reg d).2).tools.map (fun t => t.name)).Nodup := by
  obtain ⟨dn, dd, ds, de, dc⟩ := d
  rcases dn with _ | nm
  · exact ⟨hlen, hsome, hnodup⟩
  · rcases de with _ | f
    · exact ⟨hlen, hsome, hnodup⟩
    · simp only [neuronos_tool_register]
      split_ifs with hcap hdup
      · exact ⟨hlen, hsome, hnodup⟩
      · exact ⟨hlen, hsome, hnodup⟩
      · refine ⟨?_, ?_, ?_⟩
        · simp only [List.length_append, List.length_cons, List.length_nil]
          unfold NEURONOS_MAX_TOOLS at hcap
          omega
        · intro t ht
          rcases List.mem_append.mp ht with h' | h'
          · exact hsome t h'
          · rcases List.mem_singleton.mp h' with rfl
            simp
        · have hnotmem : (some nm) ∉ reg.tools.map (fun t => t.name) := by
            intro hmem
            obtain ⟨t, htmem, htname⟩ := List.mem_map.mp hmem
            exact hdup (List.any_eq_true.mpr ⟨t, htmem, by simp [htname]⟩)
          rw [List.map_append]
          simp [List.nodup_append, hnodup, hnotmem]

/-- Every sequence of register calls preserves the invariant. -/
theorem register_sequence_inv (descs : List neuronos_tool_desc_t) :
    (register_sequence descs).tools.length ≤ 64 ∧
    (∀ t ∈ (register_sequence descs).tools, t.name ≠ none) ∧
    ((register_sequence descs).tools.map (fun t => t.name)).Nodup := by
  unfold register_sequence
  suffices h : ∀ (l : List neuronos_tool_desc_t) (reg : neuronos_tool_reg),
      reg.tools.length ≤ 64 → (∀ t ∈ reg.tools, t.name ≠ none) →
      (reg.tools.map (fun t => t.name)).Nodup →
      ((l.foldl (fun reg desc => (neuronos_tool_register reg desc).2) reg).tools.length ≤ 64 ∧
       (∀ t ∈ (l.foldl (fun reg desc => (neuronos_tool_register reg desc).2) reg).tools,
          t.name ≠ none) ∧
       ((l.foldl (fun reg desc => (neuronos_tool_register reg desc).2) reg).tools.map
          (fun t => t.name)).Nodup) by
    exact h descs neuronos_tool_registry_create (by simp [neuronos_tool_registry_create])
      (by simp [neuronos_tool_registry_create]) (by simp [neuronos_tool_registry_create])
  intro l
  induction l with
  | nil => intro reg h1 h2 h3; exact ⟨h1, h2, h3⟩
  | cons d l ih =>
    intro reg h1 h2 h3
    rw [List.foldl_cons]
    obtain ⟨h1', h2', h3'⟩ := register_preserves_inv reg d h1 h2 h3
    exact ih _ h1' h2' h3'

/-- Claim C10: starting from a fresh registry, after any sequence of
register calls the count is at most 64, the registered names are
pairwise distinct, and the index-based name lookup returns NULL exactly
for indices outside `[0, count)`. -/
theorem registry_invariant (descs : List neuronos_tool_desc_t) :
    (register_sequence descs).tools.length ≤ NEURONOS_MAX_TOOLS ∧
    ((register_sequence descs).tools.map (fun t => t.name)).Nodup ∧
    (∀ index : Int,
      neuronos_tool_name (some (register_sequence descs)) index = none ↔
        (index < 0 ∨ ((register_sequence descs).tools.length : Int) ≤ index)) := by
  obtain ⟨hlen, hsome, hnodup⟩ := register_sequence_inv descs
  refine ⟨hlen, hnodup, ?_⟩
  intro index
  simp only [neuronos_tool_name]
  by_cases hc : index < 0 ∨ ((register_sequence descs).tools.length : Int) ≤ index
  · simp [hc]
  · rw [if_neg hc]
    push_neg at hc
    have hlt : index.toNat < (register_sequence descs).tools.length := by omega
    have hname := hsome _ (List.getElem_mem hlt)
    simp [List.get?_eq_getElem?, List.getElem?_eq_getElem hlt, hname]
    omega

/-- Witness for C10 at a concrete register sequence (with a duplicate). -/
theorem registry_invariant_witness :
    (register_sequence [⟨some "a", none, none, some null_executor, 0⟩,
        ⟨some "a", none, none, some null_executor, 0⟩]).tools.length ≤ NEURONOS_MAX_TOOLS ∧
    ((register_sequence [⟨some "a", none, none, some null_executor, 0⟩,
        ⟨some "a", none, none, some null_executor, 0⟩]).tools.map (fun t => t.name)).Nodup ∧
    (∀ index : Int,
      neuronos_tool_name (some (register_sequence [⟨some "a", none, none, some null_executor, 0⟩,
          ⟨some "a", none, none, some null_executor, 0⟩])) index = none ↔
        (index < 0 ∨
          ((register_sequence [⟨some "a", none, none, some null_executor, 0⟩,
            ⟨some "a", none, none, some null_executor, 0⟩]).tools.length : Int) ≤ index)) :=
  registry_invariant [⟨some "a", none, none, some null_executor, 0⟩,
    ⟨some "a", none, none, some null_executor, 0⟩]
